/-
Verification of the Spade_PublicTransportation system against its
natural-language specification.

The development shallowly embeds the Python source:
  * `src/models/city_map.py`  (CityGraph: directed graph, class-filtered
    Dijkstra shortest path, time/distance path costs),
  * `src/agents/vehicle.py`   (TransportBehaviour: CFP handling, award
    handling, movement stepping, stop processing, traffic updates),
  * `src/agents/station.py`   (CNPManager: contract-net decision cycle),
  * `src/agents/maintenance.py` (bounded repair pool, as a step relation).

Conventions: node names are `String` (as in the source); all numeric
quantities (edge weights, fuel) are embedded as `ℚ` — the Python floats in
play are small decimal constants (0.2, 15, 30, 100) and integer weights, so
rational arithmetic models them exactly.  Fallible lookups return `Option`.
-/
import Mathlib

namespace Spade

/-! ## Road network (src/models/city_map.py)

A networkx `DiGraph` keyed on `(src, dst)` with attributes `weight`
(mutable time cost), `base_weight` (distance cost) and `allowed_types`.
The source never creates two edges with the same `(src, dst)` key
(networkx would overwrite), so an edge list with unique keys is a faithful
representation; lookups take the first matching edge. -/

structure Edge where
  src : String
  dst : String
  weight : ℚ
  base_weight : ℚ
  allowed_types : List String
deriving DecidableEq, Repr

structure CityGraph where
  edges : List Edge
deriving DecidableEq, Repr

/-- First edge with the given endpoints (the unique one, in graphs built by
`create_sample_map` and mutated only by traffic updates). -/
def findEdge (g : CityGraph) (u v : String) : Option Edge :=
  g.edges.find? (fun e => e.src == u && e.dst == v)

/-- `is_passable` of `get_shortest_path`: the edge `(u, v)` exists and its
`allowed_types` contains the vehicle class. -/
def passable (g : CityGraph) (cls u v : String) : Bool :=
  g.edges.any (fun e => e.src == u && e.dst == v && e.allowed_types.contains cls)

/-- `get_total_time`: sum of `weight` along consecutive edges of a path.
The Python indexes `graph[u][v]["weight"]` directly and is only ever called
on paths whose edges exist; a missing edge contributes the total-function
default `0` here. -/
def get_total_time (g : CityGraph) : List String → ℚ
  | u :: v :: rest => ((findEdge g u v).map Edge.weight).getD 0 + get_total_time g (v :: rest)
  | _ => 0

/-- `get_total_distance`: sum of `base_weight` along consecutive edges,
with the source's `.get("base_weight", 10)` default. -/
def get_total_distance (g : CityGraph) : List String → ℚ
  | u :: v :: rest =>
      ((findEdge g u v).map Edge.base_weight).getD 10 + get_total_distance g (v :: rest)
  | _ => 0

/-- The traffic-update handler in `TransportBehaviour.run`: if the edge
exists, overwrite its `weight`; `base_weight` and `allowed_types` are
untouched, and no edge is created or removed. -/
def applyTrafficUpdate (g : CityGraph) (u v : String) (w : ℚ) : CityGraph :=
  if g.edges.any (fun e => e.src == u && e.dst == v) then
    { edges := g.edges.map (fun e =>
        if e.src == u && e.dst == v then { e with weight := w } else e) }
  else g

/-- A whole sequence of traffic updates, applied in arrival order. -/
def applyTrafficUpdates (g : CityGraph) (us : List (String × String × ℚ)) : CityGraph :=
  us.foldl (fun acc upd => applyTrafficUpdate acc upd.1 upd.2.1 upd.2.2) g

/-! ### Class-filtered shortest path (Dijkstra)

`get_shortest_path` runs `nx.shortest_path` (Dijkstra, non-negative
weights) on the subgraph view keeping only edges passable for the class,
catching `NetworkXNoPath` into `None`.  We embed it as a list-based
Dijkstra over the passable edges: repeatedly extract the cheapest frontier
entry, finalize it, and relax its passable out-edges (never re-entering a
finalized node).  Ties keep the earlier entry, and the fuel
`edges.length + 2` strictly bounds the number of finalizations, so the
loop always ends with an exhausted frontier. -/

structure PathEntry where
  node : String
  cost : ℚ
  path : List String
deriving DecidableEq, Repr

/-- Extract an entry of minimum cost (the first among ties), returning it
together with the remaining entries. -/
def extractMin : List PathEntry → Option (PathEntry × List PathEntry)
  | [] => none
  | e :: rest =>
    match extractMin rest with
    | none => some (e, [])
    | some (m, rest') => if e.cost ≤ m.cost then some (e, rest) else some (m, e :: rest')

/-- Merge a candidate entry into the frontier: replace an existing entry
for the same node only by a strictly cheaper one (Dijkstra's strict
decrease-key), append if the node is new. -/
def updateEntry (cand : PathEntry) : List PathEntry → List PathEntry
  | [] => [cand]
  | e :: rest =>
    if e.node == cand.node then
      (if cand.cost < e.cost then cand :: rest else e :: rest)
    else e :: updateEntry cand rest

/-- The nodes of a list of entries. -/
def entryKeys (l : List PathEntry) : List String := l.map PathEntry.node

/-- The tentative entry produced by relaxing edge `e` out of the
finalized entry `u`. -/
def relaxCand (u : PathEntry) (e : Edge) : PathEntry :=
  { node := e.dst, cost := u.cost + e.weight, path := u.path ++ [e.dst] }

/-- Relax the given out-edges of `u` one after the other, skipping
already-finalized nodes. -/
def relaxList (u : PathEntry) (doneKeys : List String) :
    List Edge → List PathEntry → List PathEntry
  | [], fr => fr
  | e :: es, fr =>
    relaxList u doneKeys es
      (if doneKeys.contains e.dst then fr else updateEntry (relaxCand u e) fr)

/-- Relax all passable out-edges of the just-finalized entry `u`. -/
def relaxAll (g : CityGraph) (cls : String) (u : PathEntry) (doneKeys : List String)
    (frontier : List PathEntry) : List PathEntry :=
  relaxList u doneKeys
    (g.edges.filter (fun e => e.src == u.node && e.allowed_types.contains cls)) frontier

/-- Main Dijkstra loop: returns the list of finalized entries. -/
def dijkstraAux (g : CityGraph) (cls : String) :
    Nat → List PathEntry → List PathEntry → List PathEntry
  | 0, _, done => done
  | fuel + 1, frontier, done =>
    match extractMin frontier with
    | none => done
    | some (u, rest) =>
      dijkstraAux g cls fuel
        (relaxAll g cls u (u.node :: entryKeys done) rest) (u :: done)

/-- `CityGraph.get_shortest_path`: the node sequence of a cheapest passable
path from `start` to `target` for the class, or `none` when `target` is
unreachable in the class-restricted view (the `NetworkXNoPath` branch).
Total by construction: unreachability is a return value, not an exception. -/
def get_shortest_path (g : CityGraph) (start target cls : String) : Option (List String) :=
  ((dijkstraAux g cls (g.edges.length + 2)
      [{ node := start, cost := 0, path := [start] }] []).find?
    (fun e => e.node == target)).map PathEntry.path

/-- A node sequence is a walk of the class-restricted view: nonempty, and
every consecutive pair is a passable edge for the class. -/
def pathOk (g : CityGraph) (cls : String) : List String → Bool
  | [] => false
  | [_] => true
  | u :: v :: rest => passable g cls u v && pathOk g cls (v :: rest)

/-- A valid answer to the routing query: a walk of the class-restricted
view from `start` to `target`. -/
def ValidPath (g : CityGraph) (cls start target : String) (p : List String) : Prop :=
  pathOk g cls p = true ∧ p.head? = some start ∧ p.getLast? = some target

/-- Internal soundness invariant of a Dijkstra entry: its recorded path
is a valid class-restricted walk from `start` to its node. -/
def EntryOk (g : CityGraph) (cls start : String) (e : PathEntry) : Prop :=
  ValidPath g cls start e.node e.path

/-- `create_sample_map` of `src/models/city_map.py` (weights are also the
initial `base_weight`s). -/
def create_sample_map : CityGraph :=
  { edges :=
      [ ⟨"Central", "North", 10, 10, ["bus", "tram"]⟩,
        ⟨"North", "Central", 10, 10, ["bus", "tram"]⟩,
        ⟨"Central", "East", 10, 10, ["bus", "tram"]⟩,
        ⟨"East", "Central", 10, 10, ["bus", "tram"]⟩,
        ⟨"Central", "South", 12, 12, ["bus"]⟩,
        ⟨"South", "Central", 12, 12, ["bus"]⟩,
        ⟨"Central", "West", 8, 8, ["tram"]⟩,
        ⟨"West", "Central", 8, 8, ["tram"]⟩,
        ⟨"West", "North", 12, 12, ["bus"]⟩,
        ⟨"North", "West", 12, 12, ["bus"]⟩,
        ⟨"North", "East", 8, 8, ["tram", "bus"]⟩,
        ⟨"East", "North", 8, 8, ["tram", "bus"]⟩,
        ⟨"East", "Stadium", 6, 6, ["tram"]⟩,
        ⟨"Stadium", "North", 7, 7, ["tram"]⟩,
        ⟨"South", "University", 5, 5, ["bus"]⟩,
        ⟨"University", "South", 5, 5, ["bus"]⟩,
        ⟨"West", "University", 18, 18, ["bus"]⟩,
        ⟨"University", "West", 18, 18, ["bus"]⟩,
        ⟨"South", "Airport", 25, 25, ["bus"]⟩,
        ⟨"Airport", "South", 25, 25, ["bus"]⟩,
        ⟨"East", "Airport", 35, 35, ["bus"]⟩,
        ⟨"Airport", "East", 35, 35, ["bus"]⟩,
        ⟨"South", "GasStation", 5, 5, ["bus"]⟩,
        ⟨"GasStation", "South", 5, 5, ["bus"]⟩ ] }

/-! ## Vehicle agent (src/agents/vehicle.py)

`TransportBehaviour`'s handlers, embedded as pure transitions on the
vehicle's mutable state.  Messages the handlers send are collected in an
event list; simulated sleeps, prints and dashboard status updates carry no
state and are modelled by the corresponding events where a claim needs
them. -/

structure Passenger where
  id : String
  dest : String
deriving DecidableEq, Repr

/-- A `pending_bids` entry: `{"origin": .., "dest": .., "fuel_cost": ..}`. -/
structure BidData where
  origin : String
  dest : String
  fuel_cost : ℚ
deriving DecidableEq, Repr

structure VehicleState where
  jid : String
  vehicle_type : String
  current_location : String
  capacity : Nat
  manifest : List Passenger
  waypoints : List String
  pending_bids : List (String × BidData)
  fuel_level : ℚ
  fuel_consumption : ℚ
  is_broken : Bool
  is_refueling : Bool
  city_map : CityGraph
deriving DecidableEq, Repr

/-- Messages a vehicle handler can emit (replies, service requests,
dashboard updates). -/
inductive VEvent where
  | statusUpdate (status : String)
  | refuseReply (reason : String)
  | proposeReply (vehicle_id : String) (eta : ℚ) (capacity : Nat) (route : List String)
  | refuelRequest (amount : ℚ)
  | breakdownReport (issue : String)
deriving DecidableEq, Repr

/-- `go_to_gas_station`: append the depot to the waypoint queue unless
refueling or already queued. -/
def go_to_gas_station (s : VehicleState) : VehicleState :=
  if s.is_refueling || s.waypoints.contains "GasStation" then s
  else { s with waypoints := s.waypoints ++ ["GasStation"] }

/-- `trigger_breakdown`: mark broken, report status, send the repair
request to the workshop. -/
def trigger_breakdown (s : VehicleState) (issue : String) : VehicleState × List VEvent :=
  ({ s with is_broken := true },
   [.statusUpdate "broken", .breakdownReport issue])

/-- `process_stop`: stop-arrival logic — refuel request at the depot,
passenger drop-off, preventive pit-stop decision. -/
def process_stop (s : VehicleState) (location : String) : VehicleState × List VEvent :=
  if location = "GasStation" then
    ({ s with is_refueling := true }, [.refuelRequest (100 - s.fuel_level)])
  else
    -- drop off every passenger whose destination is this stop (when none
    -- exits the source skips the assignment, which is the same state)
    let s1 := { s with manifest := s.manifest.filter (fun p => p.dest != location) }
    let s2 :=
      if s1.manifest.isEmpty && s1.vehicle_type != "tram" then
        let path_pump := get_shortest_path s1.city_map location "GasStation" "bus"
        let cost_to_pump :=
          match path_pump with
          | some p => get_total_distance s1.city_map p * s1.fuel_consumption
          | none => 0
        if s1.fuel_level < cost_to_pump + 10 then
          if !s1.waypoints.contains "GasStation" then go_to_gas_station s1 else s1
        else s1
      else s1
    (s2, [.statusUpdate "idle"])

/-- `move_to_next_node`: one movement step toward the head waypoint.
`engineFailRoll` is the oracle for `random.random() < 0.01` on a
successful hop. -/
def move_to_next_node (s : VehicleState) (engineFailRoll : Bool) :
    VehicleState × List VEvent :=
  match s.waypoints with
  | [] => (s, [])
  | target :: rest =>
    if s.current_location = target then
      process_stop { s with waypoints := rest } target
    else
      match get_shortest_path s.city_map s.current_location target s.vehicle_type with
      | none => ({ s with waypoints := rest }, [])
      | some path =>
        if hp : path.length < 2 then ({ s with waypoints := rest }, [])
        else
          let next_node := path.get ⟨1, by omega⟩
          -- edge_data.get("weight", 10) / .get("base_weight", 10)
          let distance := ((findEdge s.city_map s.current_location next_node).map
            Edge.base_weight).getD 10
          let fuel_cost := distance * s.fuel_consumption
          if s.vehicle_type != "tram" && s.fuel_level < fuel_cost then
            trigger_breakdown s "no_fuel"
          else
            let s1 := { s with
              current_location := next_node,
              fuel_level :=
                if s.vehicle_type != "tram" then s.fuel_level - fuel_cost
                else s.fuel_level }
            if engineFailRoll then
              let (s2, evs) := trigger_breakdown s1 "engine_fail"
              (s2, .statusUpdate "moving" :: evs)
            else
              (s1, [.statusUpdate "moving", .statusUpdate "moving"])

/-- `handle_cfp`: bid evaluation for a call-for-proposals carrying
`origin`/`destination` with correlation key `thread_id` (absent threads
skip the pending-bid recording, as in `if thread_id:`). -/
def handle_cfp (s : VehicleState) (origin destination : String)
    (thread_id : Option String) : VehicleState × List VEvent :=
  if s.vehicle_type != "tram" && s.fuel_level < 30 then
    let s1 :=
      if s.manifest.isEmpty && !s.waypoints.contains "GasStation" then
        go_to_gas_station s
      else s
    (s1, [.refuseReply "low_fuel"])
  else if s.capacity ≤ s.manifest.length then
    (s, [.refuseReply "full_capacity"])
  else
    let path_pickup := get_shortest_path s.city_map s.current_location origin s.vehicle_type
    let path_trip := get_shortest_path s.city_map origin destination s.vehicle_type
    match path_pickup, path_trip with
    | some pickup, some trip =>
      let pickup_cost := get_total_distance s.city_map pickup
      let trip_cost := get_total_distance s.city_map trip
      let fuel_needed := (pickup_cost + trip_cost) * s.fuel_consumption
      let proceed : VehicleState × List VEvent :=
        let s1 :=
          match thread_id with
          | some tid =>
            { s with pending_bids :=
                (tid, ⟨origin, destination, fuel_needed⟩) :: s.pending_bids.eraseP (·.1 == tid) }
          | none => s
        (s1, [.proposeReply s.jid pickup_cost (s.capacity - s.manifest.length) trip])
      if s.vehicle_type != "tram" then
        let path_pump := get_shortest_path s.city_map destination "GasStation" "bus"
        -- NOTE: the source computes the reserve from get_total_time here
        let safety :=
          match path_pump with
          | some p => get_total_time s.city_map p * s.fuel_consumption
          | none => 0
        let total_required := fuel_needed + safety + 15
        if s.fuel_level < total_required then
          (s, [.refuseReply "insufficient_fuel_safety"])
        else proceed
      else proceed
    | _, _ => (s, [.refuseReply "route_impossible"])

/-- `handle_acceptance`: award (ACCEPT_PROPOSAL) handling with the
double-booking re-check. -/
def handle_acceptance (s : VehicleState) (thread_id : Option String)
    (passenger_id : String) : VehicleState × List VEvent :=
  if s.capacity ≤ s.manifest.length then
    (s, [.refuseReply "capacity_full_error"])
  else
    match thread_id.bind (fun tid => (s.pending_bids.find? (·.1 == tid)).map (tid, ·.2)) with
    | some (tid, bid) =>
      let manifest' := s.manifest ++ [⟨passenger_id, bid.dest⟩]
      let wp1 :=
        if s.current_location ≠ bid.origin then
          if s.waypoints.isEmpty || s.waypoints.getLast? != some bid.origin then
            bid.origin :: s.waypoints
          else s.waypoints
        else s.waypoints
      let wp2 := if !wp1.contains bid.dest then wp1 ++ [bid.dest] else wp1
      ({ s with
          manifest := manifest',
          waypoints := wp2,
          pending_bids := s.pending_bids.eraseP (·.1 == tid) }, [])
    | none => (s, [])

/-! ## Station agent (src/agents/station.py)

`CNPManager.run` after the collection window: the decision on the ordered
list of proposals received before the cutoff (arrival order = list
order).  Python's `list.sort` is stable, and any two stable sorts on the
same key agree pointwise, so `List.insertionSort` on `eta` (which Mathlib
implements stably) is the same function on lists of proposals. -/

structure Proposal where
  vehicle_id : String
  eta : ℚ
deriving DecidableEq, Repr

/-- What the passenger is told at the end of a session. -/
inductive PassengerMsg where
  | vehicleFound (eta : ℚ)
  | noVehiclesAvailable
deriving DecidableEq, Repr

/-- The outcome of one CNP cycle: the award (ACCEPT_PROPOSAL target), the
REJECT_PROPOSAL recipients with reason `better_proposal_found`, the
message sent to the passenger (at most one), the station queue afterwards,
and the metric record kind. -/
structure CNPOutcome where
  award : Option Proposal
  rejections : List Proposal
  passengerMsg : Option PassengerMsg
  queue : List String
  metricKind : String
deriving DecidableEq, Repr

/-- Proposal ordering used by `proposals.sort(key=lambda x: x[1])`. -/
def etaLE (a b : Proposal) : Prop := a.eta ≤ b.eta

instance : DecidableRel etaLE := fun a b => inferInstanceAs (Decidable (a.eta ≤ b.eta))

instance : IsTotal Proposal etaLE := ⟨fun a b => le_total a.eta b.eta⟩

instance : IsTrans Proposal etaLE := ⟨fun _ _ _ h h' => le_trans h h'⟩

/-- `CNPManager.run` from the window close on: `proposals` in arrival
order, `queue` the station's passenger queue, `passenger` the requester. -/
def cnpDecide (proposals : List Proposal) (queue : List String)
    (passenger : String) : CNPOutcome :=
  match List.insertionSort etaLE proposals with
  | best :: others =>
    { award := some best,
      rejections := others,
      passengerMsg := some (.vehicleFound best.eta),
      queue := if passenger ∈ queue then queue.erase passenger else queue,
      metricKind := "NEGOTIATION_OK" }
  | [] =>
    if passenger ∈ queue then
      { award := none, rejections := [],
        passengerMsg := some .noVehiclesAvailable,
        queue := queue.erase passenger,
        metricKind := "NEGOTIATION_FAIL" }
    else
      { award := none, rejections := [], passengerMsg := none,
        queue := queue, metricKind := "NEGOTIATION_FAIL" }

/-! ## Maintenance agent (src/agents/maintenance.py)

The repair pool guards its mechanics with `asyncio.Semaphore(N)`; each
`RepairJob` does `async with sem: sleep; reply`.  Embedded as a step
relation on the pool state — counts of jobs waiting for a mechanic, in
service, and finished, plus the semaphore value.  The transitions are
exactly the semaphore discipline: a job starts only by acquiring
(`0 < sem`), and finishing releases. -/

structure PoolState where
  waiting : Nat
  inService : Nat
  finished : Nat
  sem : Nat
deriving DecidableEq, Repr

/-- Pool transitions: a breakdown report arrives; a queued job acquires a
free mechanic; a running job completes and releases its mechanic. -/
inductive PoolStep : PoolState → PoolState → Prop where
  | arrive (s : PoolState) :
      PoolStep s { s with waiting := s.waiting + 1 }
  | start (s : PoolState) (hw : 0 < s.waiting) (hs : 0 < s.sem) :
      PoolStep s { s with
        waiting := s.waiting - 1, inService := s.inService + 1, sem := s.sem - 1 }
  | finish (s : PoolState) (hi : 0 < s.inService) :
      PoolStep s { s with
        inService := s.inService - 1, finished := s.finished + 1, sem := s.sem + 1 }

/-- `MaintenanceAgent.setup` with `num_mechanics = N`: empty shop, all
mechanics free. -/
def initialPool (N : Nat) : PoolState :=
  { waiting := 0, inService := 0, finished := 0, sem := N }

/-- States the pool can reach from startup under any arrival pattern. -/
def PoolReachable (N : Nat) : PoolState → Prop :=
  Relation.ReflTransGen PoolStep (initialPool N)

/-! ## Concrete fixtures used by witnesses -/

/-- A bus of capacity 1 whose single seat is taken, with a live pending
bid for session "t1". -/
def fullBus : VehicleState :=
  { jid := "bus1", vehicle_type := "bus", current_location := "Central",
    capacity := 1, manifest := [⟨"p0", "South"⟩], waypoints := ["South"],
    pending_bids := [("t1", ⟨"Central", "South", 17/5⟩)],
    fuel_level := 100, fuel_consumption := 1/5,
    is_broken := false, is_refueling := false, city_map := create_sample_map }

/-- An empty bus parked at West whose head waypoint (Stadium) is only
reachable by tram edges. -/
def strandedBus : VehicleState :=
  { jid := "bus2", vehicle_type := "bus", current_location := "West",
    capacity := 4, manifest := [], waypoints := ["Stadium", "Central"],
    pending_bids := [],
    fuel_level := 100, fuel_consumption := 1/5,
    is_broken := false, is_refueling := false, city_map := create_sample_map }

/-- A full-tank empty bus at Central on a map where congestion has pushed
the South→GasStation time cost to 1000 (its distance cost stays 5). -/
def reserveBus : VehicleState :=
  { jid := "bus3", vehicle_type := "bus", current_location := "Central",
    capacity := 4, manifest := [], waypoints := [], pending_bids := [],
    fuel_level := 100, fuel_consumption := 1/5,
    is_broken := false, is_refueling := false,
    city_map := applyTrafficUpdate create_sample_map "South" "GasStation" 1000 }

/-- A full-tank empty bus at Central on a map where the Central→North
time cost was updated from 10 to 12 (distance cost stays 10). -/
def etaBus : VehicleState :=
  { jid := "bus4", vehicle_type := "bus", current_location := "Central",
    capacity := 4, manifest := [], waypoints := [], pending_bids := [],
    fuel_level := 100, fuel_consumption := 1/5,
    is_broken := false, is_refueling := false,
    city_map := applyTrafficUpdate create_sample_map "Central" "North" 12 }

/-! ## Theorems -/

/-- A traffic update rewrites lookups pointwise: the found edge is the old
one with only `weight` possibly overwritten. -/
theorem findEdge_applyTrafficUpdate (g : CityGraph) (u v : String) (w : ℚ)
    (a b : String) :
    findEdge (applyTrafficUpdate g u v w) a b =
      (findEdge g a b).map
        (fun e => if e.src == u && e.dst == v then { e with weight := w } else e) := by
  unfold applyTrafficUpdate findEdge
  by_cases hg : (g.edges.any (fun e => e.src == u && e.dst == v)) = true
  · rw [if_pos hg]
    dsimp only
    rw [List.find?_map]
    have hpf : ((fun e => e.src == a && e.dst == b) ∘
        (fun e => if e.src == u && e.dst == v then { e with weight := w } else e)) =
        (fun e : Edge => e.src == a && e.dst == b) := by
      funext e
      by_cases h : (e.src == u && e.dst == v) = true <;> simp [Function.comp, h]
    rw [hpf]
  · rw [if_neg hg]
    rcases hf : List.find? (fun e => e.src == a && e.dst == b) g.edges with _ | e
    · rw [hf]; rfl
    · rw [hf]
      have he : e ∈ g.edges := List.mem_of_find?_eq_some hf
      have hne : ¬((e.src == u && e.dst == v) = true) := by
        intro hc
        exact hg (List.any_eq_true.mpr ⟨e, he, hc⟩)
      simp only [Bool.and_eq_true, beq_iff_eq] at hne
      simp [hne]

/-- A traffic update never touches `base_weight`. -/
theorem base_weight_applyTrafficUpdate (g : CityGraph) (u v : String) (w : ℚ)
    (a b : String) :
    (findEdge (applyTrafficUpdate g u v w) a b).map Edge.base_weight =
      (findEdge g a b).map Edge.base_weight := by
  rw [findEdge_applyTrafficUpdate]
  rcases findEdge g a b with _ | e
  · rfl
  · simp only [Option.map_some']
    congr 1
    split <;> rfl

/-- A single traffic update leaves every path's distance cost unchanged. -/
theorem get_total_distance_applyTrafficUpdate (g : CityGraph) (u v : String)
    (w : ℚ) (p : List String) :
    get_total_distance (applyTrafficUpdate g u v w) p = get_total_distance g p := by
  induction p with
  | nil => rfl
  | cons x xs ih =>
    cases xs with
    | nil => rfl
    | cons y ys =>
      simp only [get_total_distance] at ih ⊢
      rw [ih, base_weight_applyTrafficUpdate]

/-- C7: traffic updates only rewrite time costs.  For any sequence of
updates, every fixed path's `get_total_distance` is unchanged; a single
update preserves `base_weight` and `allowed_types` of every edge, leaves
every edge other than the targeted one entirely alone, and sets the
targeted edge's `weight` to the new value when the edge exists (so
`get_total_time` — by definition the sum of current `weight`s — reflects
the update). -/
theorem traffic_update_independence (g : CityGraph)
    (us : List (String × String × ℚ)) (p : List String) (u v a b : String) (w : ℚ) :
    get_total_distance (applyTrafficUpdates g us) p = get_total_distance g p ∧
    (findEdge (applyTrafficUpdate g u v w) a b).map Edge.base_weight =
      (findEdge g a b).map Edge.base_weight ∧
    (findEdge (applyTrafficUpdate g u v w) a b).map Edge.allowed_types =
      (findEdge g a b).map Edge.allowed_types ∧
    (¬(a = u ∧ b = v) → findEdge (applyTrafficUpdate g u v w) a b = findEdge g a b) ∧
    (∀ e, findEdge g u v = some e →
      findEdge (applyTrafficUpdate g u v w) u v = some { e with weight := w }) := by
  refine ⟨?_, base_weight_applyTrafficUpdate g u v w a b, ?_, ?_, ?_⟩
  · induction us generalizing g with
    | nil => rfl
    | cons x xs ih =>
      show get_total_distance (applyTrafficUpdates (applyTrafficUpdate g x.1 x.2.1 x.2.2) xs) p = _
      rw [ih, get_total_distance_applyTrafficUpdate]
  · rw [findEdge_applyTrafficUpdate]
    rcases findEdge g a b with _ | e
    · rfl
    · simp only [Option.map_some']
      congr 1
      split <;> rfl
  · intro hne
    rw [findEdge_applyTrafficUpdate]
    rcases hf : findEdge g a b with _ | e
    · rfl
    · have hs := List.find?_some hf
      simp only [Bool.and_eq_true, beq_iff_eq] at hs
      have h : ¬ ((e.src == u && e.dst == v) = true) := by
        intro hc
        simp only [Bool.and_eq_true, beq_iff_eq] at hc
        exact hne ⟨hs.1 ▸ hc.1, hs.2 ▸ hc.2⟩
      simp [h]
      intro h1 h2
      exact absurd (by simp [h1, h2]) h
  · intro e he
    rw [findEdge_applyTrafficUpdate, he]
    have hs := List.find?_some he
    simp only [Bool.and_eq_true, beq_iff_eq] at hs
    simp [hs.1, hs.2]

/-- C1: `len(manifest) ≤ capacity` is preserved by every award, and an
award arriving while the manifest is already at capacity is answered by a
single REFUSE with reason `capacity_full_error` while the manifest, the
waypoint queue and the pending-bid table (including the entry for that
session, which is not deleted) are left exactly as they were. -/
theorem award_capacity_invariant (s : VehicleState) (tid : Option String)
    (pid : String) :
    (s.manifest.length ≤ s.capacity →
      (handle_acceptance s tid pid).1.manifest.length ≤ s.capacity) ∧
    (s.capacity ≤ s.manifest.length →
      handle_acceptance s tid pid = (s, [VEvent.refuseReply "capacity_full_error"])) := by
  constructor
  · intro h
    unfold handle_acceptance
    by_cases hc : s.capacity ≤ s.manifest.length
    · simpa [hc] using h
    · rw [if_neg hc]
      rcases hb : tid.bind
          (fun tid => ((s.pending_bids.find? (·.1 == tid)).map (tid, ·.2))) with _ | ⟨t, bid⟩ <;>
        simp [hb] <;> omega
  · intro h
    unfold handle_acceptance
    rw [if_pos h]

/-- C1 witness: both parts at a concrete full vehicle (capacity 1, one
passenger aboard, a pending bid for session "t1" that stays in the
table). -/
theorem award_capacity_invariant_witness :
    (handle_acceptance fullBus (some "t1") "p9").1.manifest.length ≤ fullBus.capacity ∧
    handle_acceptance fullBus (some "t1") "p9" =
      (fullBus, [VEvent.refuseReply "capacity_full_error"]) ∧
    (handle_acceptance fullBus (some "t1") "p9").1.pending_bids =
      [("t1", ⟨"Central", "South", 17/5⟩)] :=
  ⟨(award_capacity_invariant fullBus (some "t1") "p9").1 (by decide),
   (award_capacity_invariant fullBus (some "t1") "p9").2 (by decide),
   by rw [(award_capacity_invariant fullBus (some "t1") "p9").2 (by decide)]
      with_unfolding_all rfl⟩

/-- C10: an award whose session id is not in the pending-bid table,
received below capacity, changes nothing and sends nothing. -/
theorem stale_award_dropped_silently (s : VehicleState) (tid : Option String)
    (pid : String) (hcap : s.manifest.length < s.capacity)
    (habs : ∀ t, tid = some t → s.pending_bids.find? (·.1 == t) = none) :
    handle_acceptance s tid pid = (s, []) := by
  unfold handle_acceptance
  rw [if_neg (by omega)]
  have hb : tid.bind
      (fun tid => ((s.pending_bids.find? (·.1 == tid)).map (tid, ·.2))) = none := by
    cases tid with
    | none => rfl
    | some t => simp [habs t rfl]
  rw [hb]

/-- C10 witness: a below-capacity vehicle dropping an award for an unknown
session id. -/
theorem stale_award_dropped_silently_witness :
    handle_acceptance strandedBus (some "ghost") "p9" = (strandedBus, []) :=
  stale_award_dropped_silently strandedBus (some "ghost") "p9" (by decide)
    (by intro t ht; cases ht; decide)

/-- C9: when the head waypoint differs from the current location and the
class-filtered shortest path to it is missing (or degenerate, shorter than
two nodes), the movement step just pops that waypoint: location, fuel,
manifest and the broken/refueling flags are untouched and no event (no
breakdown, refusal or error) is emitted. -/
theorem unreachable_waypoint_skipped (s : VehicleState) (roll : Bool)
    (target : String) (rest : List String)
    (hw : s.waypoints = target :: rest)
    (hne : s.current_location ≠ target)
    (hpath : get_shortest_path s.city_map s.current_location target s.vehicle_type = none ∨
      ∃ p, get_shortest_path s.city_map s.current_location target s.vehicle_type = some p ∧
        p.length < 2) :
    move_to_next_node s roll = ({ s with waypoints := rest }, []) := by
  unfold move_to_next_node
  rw [hw]
  simp only [if_neg hne]
  rcases hpath with hnone | ⟨p, hsome, hlen⟩
  · rw [hnone]
  · rw [hsome]
    simp [hlen]

/-- C9 witness: a bus at West skipping the tram-only-reachable Stadium. -/
theorem unreachable_waypoint_skipped_witness :
    move_to_next_node strandedBus false = ({ strandedBus with waypoints := ["Central"] }, []) :=
  unreachable_waypoint_skipped strandedBus false "Stadium" ["Central"] rfl (by decide)
    (Or.inl (by with_unfolding_all rfl))

/-- `extractMin` yields nothing exactly on the empty frontier. -/
theorem extractMin_eq_none : ∀ l : List PathEntry, extractMin l = none ↔ l = [] := by
  intro l
  cases l with
  | nil => simp [extractMin]
  | cons e rest =>
    simp only [extractMin]
    rcases h : extractMin rest with _ | ⟨m, rest'⟩
    · simp
    · by_cases hc : e.cost ≤ m.cost <;> simp [hc]

/-- The extracted entry together with the remaining frontier is a
permutation of the original frontier. -/
theorem extractMin_perm : ∀ (l : List PathEntry) (u : PathEntry) (rest : List PathEntry),
    extractMin l = some (u, rest) → (u :: rest).Perm l := by
  intro l
  induction l with
  | nil => intro u rest h; simp [extractMin] at h
  | cons e es ih =>
    intro u rest h
    rcases hm : extractMin es with _ | ⟨m, rest'⟩
    · rw [extractMin, hm] at h
      cases h
      have hes : es = [] := (extractMin_eq_none es).mp hm
      subst hes
      exact List.Perm.refl _
    · rw [extractMin, hm] at h
      dsimp only at h
      by_cases hc : e.cost ≤ m.cost
      · rw [if_pos hc] at h
        cases h
        exact List.Perm.refl _
      · rw [if_neg hc] at h
        cases h
        exact (List.Perm.swap _ _ _).trans ((ih _ _ hm).cons _)

/-- Every entry of `updateEntry c l` is `c` or an entry of `l`. -/
theorem mem_updateEntry : ∀ (c : PathEntry) (l : List PathEntry) (x : PathEntry),
    x ∈ updateEntry c l → x = c ∨ x ∈ l := by
  intro c l
  induction l with
  | nil => intro x hx; simpa [updateEntry] using hx
  | cons e rest ih =>
    intro x hx
    rw [updateEntry] at hx
    by_cases he : (e.node == c.node) = true
    · rw [if_pos he] at hx
      by_cases hc : c.cost < e.cost
      · rw [if_pos hc] at hx
        rcases List.mem_cons.mp hx with rfl | hx'
        · exact Or.inl rfl
        · exact Or.inr (List.mem_cons_of_mem e hx')
      · rw [if_neg hc] at hx
        exact Or.inr hx
    · rw [if_neg he] at hx
      rcases List.mem_cons.mp hx with rfl | hx'
      · exact Or.inr (List.mem_cons_self _ _)
      · rcases ih x hx' with h | h
        · exact Or.inl h
        · exact Or.inr (List.mem_cons_of_mem e h)

/-- `updateEntry` adds at most the candidate's node to the key set. -/
theorem entryKeys_updateEntry_subset : ∀ (c : PathEntry) (l : List PathEntry),
    entryKeys (updateEntry c l) ⊆ c.node :: entryKeys l := by
  intro c l
  induction l with
  | nil => simp [updateEntry, entryKeys]
  | cons e rest ih =>
    rw [updateEntry]
    by_cases he : (e.node == c.node) = true
    · rw [if_pos he]
      have hene : e.node = c.node := by simpa using he
      by_cases hc : c.cost < e.cost
      · rw [if_pos hc]
        intro k hk
        rcases List.mem_cons.mp hk with rfl | hk'
        · exact List.mem_cons_self _ _
        · exact List.mem_cons_of_mem _ (List.mem_cons_of_mem _ hk')
      · rw [if_neg hc]
        intro k hk
        rcases List.mem_cons.mp hk with rfl | hk'
        · rw [hene]; exact List.mem_cons_self _ _
        · exact List.mem_cons_of_mem _ (List.mem_cons_of_mem _ hk')
    · rw [if_neg he]
      intro k hk
      rcases List.mem_cons.mp hk with rfl | hk'
      · exact List.mem_cons_of_mem _ (List.mem_cons_self _ _)
      · rcases List.mem_cons.mp (ih hk') with rfl | hk''
        · exact List.mem_cons_self _ _
        · exact List.mem_cons_of_mem _ (List.mem_cons_of_mem _ hk'')

/-- `updateEntry` never drops a key. -/
theorem entryKeys_subset_updateEntry : ∀ (c : PathEntry) (l : List PathEntry),
    entryKeys l ⊆ entryKeys (updateEntry c l) := by
  intro c l
  induction l with
  | nil => simp [entryKeys]
  | cons e rest ih =>
    rw [updateEntry]
    by_cases he : (e.node == c.node) = true
    · rw [if_pos he]
      have hene : e.node = c.node := by simpa using he
      by_cases hc : c.cost < e.cost
      · rw [if_pos hc]
        intro k hk
        rcases List.mem_cons.mp hk with rfl | hk'
        · rw [hene]; exact List.mem_cons_self _ _
        · exact List.mem_cons_of_mem _ hk'
      · rw [if_neg hc]
        exact fun k hk => hk
    · rw [if_neg he]
      intro k hk
      rcases List.mem_cons.mp hk with rfl | hk'
      · exact List.mem_cons_self _ _
      · exact List.mem_cons_of_mem _ (ih hk')

/-- The candidate's node is a key after `updateEntry`. -/
theorem node_mem_updateEntry : ∀ (c : PathEntry) (l : List PathEntry),
    c.node ∈ entryKeys (updateEntry c l) := by
  intro c l
  induction l with
  | nil => simp [updateEntry, entryKeys]
  | cons e rest ih =>
    rw [updateEntry]
    by_cases he : (e.node == c.node) = true
    · rw [if_pos he]
      have hene : e.node = c.node := by simpa using he
      by_cases hc : c.cost < e.cost
      · rw [if_pos hc]; exact List.mem_cons_self _ _
      · rw [if_neg hc]; rw [entryKeys, List.map_cons, hene]; exact List.mem_cons_self _ _
    · rw [if_neg he]
      exact List.mem_cons_of_mem _ ih

/-- `updateEntry` preserves distinctness of the keys. -/
theorem nodup_entryKeys_updateEntry : ∀ (c : PathEntry) (l : List PathEntry),
    (entryKeys l).Nodup → (entryKeys (updateEntry c l)).Nodup := by
  intro c l
  induction l with
  | nil => intro _; simp [updateEntry, entryKeys]
  | cons e rest ih =>
    intro hnd
    rw [entryKeys, List.map_cons, List.nodup_cons] at hnd
    rw [updateEntry]
    by_cases he : (e.node == c.node) = true
    · rw [if_pos he]
      have hene : e.node = c.node := by simpa using he
      by_cases hc : c.cost < e.cost
      · rw [if_pos hc]
        rw [entryKeys, List.map_cons, List.nodup_cons]
        exact ⟨hene ▸ hnd.1, hnd.2⟩
      · rw [if_neg hc]
        rw [entryKeys, List.map_cons, List.nodup_cons]
        exact hnd
    · rw [if_neg he]
      rw [entryKeys, List.map_cons, List.nodup_cons]
      refine ⟨?_, ih hnd.2⟩
      intro hmem
      rcases List.mem_cons.mp (entryKeys_updateEntry_subset c rest hmem) with heq | hmem'
      · exact he (by simpa using heq)
      · exact hnd.1 hmem'

/-- Bool-level membership of node lists, as the algorithm tests it. -/
theorem contains_iff_mem (l : List String) (a : String) : l.contains a = true ↔ a ∈ l := by
  simp [List.contains, List.elem_iff]

/-- Every entry after a relaxation round is an old entry or the
relaxation of one of the processed edges (whose target was not yet
finalized). -/
theorem mem_relaxList (u : PathEntry) (dk : List String) :
    ∀ (es : List Edge) (fr : List PathEntry) (x : PathEntry),
      x ∈ relaxList u dk es fr →
      x ∈ fr ∨ ∃ e ∈ es, dk.contains e.dst = false ∧ x = relaxCand u e := by
  intro es
  induction es with
  | nil => intro fr x hx; exact Or.inl hx
  | cons e es ih =>
    intro fr x hx
    rw [relaxList] at hx
    by_cases hd : dk.contains e.dst = true
    · rw [if_pos hd] at hx
      rcases ih fr x hx with h | ⟨e', he', hd', hx'⟩
      · exact Or.inl h
      · exact Or.inr ⟨e', List.mem_cons_of_mem e he', hd', hx'⟩
    · rw [if_neg hd] at hx
      rcases ih _ x hx with h | ⟨e', he', hd', hx'⟩
      · rcases mem_updateEntry _ _ _ h with h' | h'
        · exact Or.inr ⟨e, List.mem_cons_self _ _, Bool.eq_false_iff.mpr hd, h'⟩
        · exact Or.inl h'
      · exact Or.inr ⟨e', List.mem_cons_of_mem e he', hd', hx'⟩

/-- Relaxation never drops a key. -/
theorem entryKeys_subset_relaxList (u : PathEntry) (dk : List String) :
    ∀ (es : List Edge) (fr : List PathEntry),
      entryKeys fr ⊆ entryKeys (relaxList u dk es fr) := by
  intro es
  induction es with
  | nil => intro fr k hk; exact hk
  | cons e es ih =>
    intro fr k hk
    rw [relaxList]
    by_cases hd : dk.contains e.dst = true
    · rw [if_pos hd]; exact ih fr hk
    · rw [if_neg hd]
      exact ih _ (entryKeys_subset_updateEntry _ _ hk)

/-- Keys after relaxation come from the frontier or from the processed
edges' targets. -/
theorem entryKeys_relaxList_subset (u : PathEntry) (dk : List String) :
    ∀ (es : List Edge) (fr : List PathEntry) (k : String),
      k ∈ entryKeys (relaxList u dk es fr) → k ∈ entryKeys fr ∨ k ∈ es.map Edge.dst := by
  intro es fr k hk
  rcases List.mem_map.mp hk with ⟨x, hx, rfl⟩
  rcases mem_relaxList u dk es fr x hx with h | ⟨e, he, _, rfl⟩
  · exact Or.inl (List.mem_map_of_mem PathEntry.node h)
  · exact Or.inr (List.mem_map_of_mem Edge.dst he)

/-- Relaxation keeps the frontier's keys distinct. -/
theorem nodup_entryKeys_relaxList (u : PathEntry) (dk : List String) :
    ∀ (es : List Edge) (fr : List PathEntry),
      (entryKeys fr).Nodup → (entryKeys (relaxList u dk es fr)).Nodup := by
  intro es
  induction es with
  | nil => intro fr h; exact h
  | cons e es ih =>
    intro fr h
    rw [relaxList]
    by_cases hd : dk.contains e.dst = true
    · rw [if_pos hd]; exact ih fr h
    · rw [if_neg hd]; exact ih _ (nodup_entryKeys_updateEntry _ _ h)

/-- Relaxation adds no key that is already finalized. -/
theorem relaxList_avoid (u : PathEntry) (dk : List String) :
    ∀ (es : List Edge) (fr : List PathEntry),
      (∀ k ∈ entryKeys fr, k ∉ dk) →
      ∀ k ∈ entryKeys (relaxList u dk es fr), k ∉ dk := by
  intro es fr hfr k hk
  rcases List.mem_map.mp hk with ⟨x, hx, rfl⟩
  rcases mem_relaxList u dk es fr x hx with h | ⟨e, _, hd, rfl⟩
  · exact hfr _ (List.mem_map_of_mem PathEntry.node h)
  · intro hmem
    have hmem' : e.dst ∈ dk := hmem
    rw [(contains_iff_mem dk _).mpr hmem'] at hd
    cases hd

/-- Every processed edge whose target is not finalized ends up with its
target among the keys. -/
theorem relaxList_cover (u : PathEntry) (dk : List String) :
    ∀ (es : List Edge) (fr : List PathEntry) (e : Edge),
      e ∈ es → dk.contains e.dst = false →
      e.dst ∈ entryKeys (relaxList u dk es fr) := by
  intro es
  induction es with
  | nil => intro fr e he; cases he
  | cons e' es ih =>
    intro fr e he hd
    rw [relaxList]
    rcases List.mem_cons.mp he with rfl | he'
    · rw [if_neg (by rw [hd]; exact Bool.false_ne_true)]
      exact entryKeys_subset_relaxList u dk es _ (node_mem_updateEntry _ _)
    · by_cases hd' : dk.contains e'.dst = true
      · rw [if_pos hd']
        exact ih fr e he' hd
      · rw [if_neg hd']
        exact ih _ e he' hd

/-- Extending a valid walk by one passable edge keeps it valid. -/
theorem pathOk_append (g : CityGraph) (cls : String) :
    ∀ (p : List String) (a b : String), pathOk g cls p = true →
      p.getLast? = some a → passable g cls a b = true →
      pathOk g cls (p ++ [b]) = true := by
  intro p
  induction p with
  | nil => intro a b _ hl; cases hl
  | cons x xs ih =>
    intro a b hok hl hpass
    cases xs with
    | nil =>
      have hxa : x = a := by simpa using hl
      subst hxa
      simpa [pathOk] using hpass
    | cons y ys =>
      simp only [pathOk, Bool.and_eq_true] at hok
      have hl' : (y :: ys).getLast? = some a := by
        rw [List.getLast?_cons_cons] at hl
        exact hl
      have := ih a b hok.2 hl' hpass
      simp only [List.cons_append, pathOk, Bool.and_eq_true]
      exact ⟨hok.1, by simpa using this⟩

/-- Relaxing a sound entry along a passable out-edge yields a sound
entry. -/
theorem entryOk_relaxCand (g : CityGraph) (cls start : String) (u : PathEntry)
    (e : Edge) (hu : EntryOk g cls start u) (he : e ∈ g.edges)
    (hsrc : e.src = u.node) (hcls : e.allowed_types.contains cls = true) :
    EntryOk g cls start (relaxCand u e) := by
  obtain ⟨hok, hhead, hlast⟩ := hu
  have hpass : passable g cls u.node e.dst = true := by
    rw [passable, List.any_eq_true]
    exact ⟨e, he, by simp [hsrc, (contains_iff_mem _ _).mp hcls]⟩
  refine ⟨pathOk_append g cls u.path u.node e.dst hok hlast hpass, ?_, ?_⟩
  · have hne : u.path ≠ [] := by
      intro hnil
      rw [hnil] at hhead
      cases hhead
    rw [relaxCand]
    dsimp only
    rw [List.head?_append_of_ne_nil _ hne]
    exact hhead
  · rw [relaxCand]
    dsimp only
    exact List.getLast?_concat _

/-- Relaxation preserves soundness of every entry. -/
theorem entryOk_relaxList (g : CityGraph) (cls start : String) (u : PathEntry)
    (dk : List String) (hu : EntryOk g cls start u) :
    ∀ (es : List Edge) (fr : List PathEntry),
      (∀ e ∈ es, e ∈ g.edges ∧ e.src = u.node ∧ e.allowed_types.contains cls = true) →
      (∀ x ∈ fr, EntryOk g cls start x) →
      ∀ x ∈ relaxList u dk es fr, EntryOk g cls start x := by
  intro es fr hes hfr x hx
  rcases mem_relaxList u dk es fr x hx with h | ⟨e, he, _, rfl⟩
  · exact hfr x h
  · obtain ⟨hmem, hsrc, hcls⟩ := hes e he
    exact entryOk_relaxCand g cls start u e hu hmem hsrc hcls

/-- The Dijkstra loop invariant: every recorded path is a sound
class-restricted walk; keys are distinct and frontier/done are disjoint;
every finalized node's passable successors are already scheduled; and all
keys are the start node or some edge's target (which bounds the number of
finalizations and so forces the loop to drain the frontier before the
fuel runs out). -/
structure DijkInv (g : CityGraph) (cls start : String)
    (frontier done : List PathEntry) : Prop where
  frOk : ∀ e ∈ frontier, EntryOk g cls start e
  doneOk : ∀ e ∈ done, EntryOk g cls start e
  frNodup : (entryKeys frontier).Nodup
  doneNodup : (entryKeys done).Nodup
  disj : ∀ k ∈ entryKeys frontier, k ∉ entryKeys done
  closed : ∀ e ∈ done, ∀ v, passable g cls e.node v = true →
    v ∈ entryKeys done ∨ v ∈ entryKeys frontier
  frBound : ∀ k ∈ entryKeys frontier, k = start ∨ k ∈ g.edges.map Edge.dst
  doneBound : ∀ k ∈ entryKeys done, k = start ∨ k ∈ g.edges.map Edge.dst

/-- Main loop lemma: from an invariant state with enough fuel, the loop
returns a sound, successor-closed set of entries covering every frontier
and finalized key. -/
theorem dijkstraAux_spec (g : CityGraph) (cls start : String) :
    ∀ (fuel : Nat) (frontier done : List PathEntry),
      DijkInv g cls start frontier done →
      g.edges.length + 2 ≤ fuel + done.length →
      (∀ e ∈ dijkstraAux g cls fuel frontier done, EntryOk g cls start e) ∧
      (∀ e ∈ dijkstraAux g cls fuel frontier done, ∀ v, passable g cls e.node v = true →
        v ∈ entryKeys (dijkstraAux g cls fuel frontier done)) ∧
      (∀ k ∈ entryKeys frontier, k ∈ entryKeys (dijkstraAux g cls fuel frontier done)) ∧
      (∀ k ∈ entryKeys done, k ∈ entryKeys (dijkstraAux g cls fuel frontier done)) := by
  intro fuel
  induction fuel with
  | zero =>
    intro frontier done inv hlen
    exfalso
    have hsub : entryKeys done ⊆ start :: g.edges.map Edge.dst := by
      intro k hk
      rcases inv.doneBound k hk with rfl | h
      · exact List.mem_cons_self _ _
      · exact List.mem_cons_of_mem _ h
    have hle := (inv.doneNodup.subperm hsub).length_le
    simp only [entryKeys, List.length_map, List.length_cons] at hle
    omega
  | succ fuel ih =>
    intro frontier done inv hlen
    rcases hx : extractMin frontier with _ | ⟨u, rest⟩
    · have hfr : frontier = [] := (extractMin_eq_none frontier).mp hx
      subst hfr
      rw [dijkstraAux, hx]
      refine ⟨inv.doneOk, ?_, by simp [entryKeys], fun k hk => hk⟩
      intro e he v hpass
      rcases inv.closed e he v hpass with h | h
      · exact h
      · simp [entryKeys] at h
    · have hperm := extractMin_perm frontier u rest hx
      have hkeysperm : (u.node :: entryKeys rest).Perm (entryKeys frontier) := by
        simpa [entryKeys] using hperm.map PathEntry.node
      have hnodup_cons : (u.node :: entryKeys rest).Nodup :=
        hkeysperm.nodup_iff.mpr inv.frNodup
      have hu_not_rest : u.node ∉ entryKeys rest := (List.nodup_cons.mp hnodup_cons).1
      have hrest_nodup : (entryKeys rest).Nodup := (List.nodup_cons.mp hnodup_cons).2
      have humem : u.node ∈ entryKeys frontier :=
        hkeysperm.mem_iff.mp (List.mem_cons_self _ _)
      have hrest_sub : ∀ k ∈ entryKeys rest, k ∈ entryKeys frontier :=
        fun k hk => hkeysperm.mem_iff.mp (List.mem_cons_of_mem _ hk)
      have hfr_cases : ∀ k ∈ entryKeys frontier, k = u.node ∨ k ∈ entryKeys rest :=
        fun k hk => List.mem_cons.mp (hkeysperm.mem_iff.mpr hk)
      have hu_ok : EntryOk g cls start u :=
        inv.frOk u (hperm.mem_iff.mp (List.mem_cons_self _ _))
      have hrest_ok : ∀ x ∈ rest, EntryOk g cls start x :=
        fun x hxm => inv.frOk x (hperm.mem_iff.mp (List.mem_cons_of_mem _ hxm))
      have hes_fact : ∀ e ∈ g.edges.filter
          (fun e => e.src == u.node && e.allowed_types.contains cls),
          e ∈ g.edges ∧ e.src = u.node ∧ e.allowed_types.contains cls = true := by
        intro e he
        have hmm := List.mem_filter.mp he
        have hp := hmm.2
        simp only [Bool.and_eq_true, beq_iff_eq] at hp
        exact ⟨hmm.1, hp.1, hp.2⟩
      have hkeysdone' : entryKeys (u :: done) = u.node :: entryKeys done := by
        simp [entryKeys]
      have hpre_avoid : ∀ k ∈ entryKeys rest, k ∉ u.node :: entryKeys done := by
        intro k hk hmem
        rcases List.mem_cons.mp hmem with rfl | hmem'
        · exact hu_not_rest hk
        · exact inv.disj k (hrest_sub k hk) hmem'
      have inv' : DijkInv g cls start
          (relaxAll g cls u (u.node :: entryKeys done) rest) (u :: done) := by
        refine ⟨?_, ?_, ?_, ?_, ?_, ?_, ?_, ?_⟩
        · exact entryOk_relaxList g cls start u _ hu_ok _ rest hes_fact hrest_ok
        · intro e he
          rcases List.mem_cons.mp he with rfl | he'
          · exact hu_ok
          · exact inv.doneOk e he'
        · exact nodup_entryKeys_relaxList u _ _ rest hrest_nodup
        · rw [hkeysdone']
          exact List.nodup_cons.mpr ⟨inv.disj u.node humem, inv.doneNodup⟩
        · intro k hk
          rw [hkeysdone']
          exact relaxList_avoid u _ _ rest hpre_avoid k hk
        · intro e he v hpass
          rcases List.mem_cons.mp he with heq | he'
          · rw [heq] at hpass
            rw [passable, List.any_eq_true] at hpass
            obtain ⟨e0, he0g, hp0⟩ := hpass
            simp only [Bool.and_eq_true, beq_iff_eq] at hp0
            obtain ⟨⟨hsrc0, hdst0⟩, hcls0⟩ := hp0
            have he0es : e0 ∈ g.edges.filter
                (fun e1 => e1.src == u.node && e1.allowed_types.contains cls) := by
              refine List.mem_filter.mpr ⟨he0g, ?_⟩
              simp [hsrc0, (contains_iff_mem _ _).mp hcls0]
            by_cases hvdk : (u.node :: entryKeys done).contains v = true
            · rw [hkeysdone']
              exact Or.inl ((contains_iff_mem _ _).mp hvdk)
            · refine Or.inr ?_
              have hcover := relaxList_cover u (u.node :: entryKeys done) _ rest e0
                he0es (Bool.eq_false_iff.mpr (by rw [hdst0]; exact hvdk))
              rw [hdst0] at hcover
              exact hcover
          · rcases inv.closed e he' v hpass with h | h
            · rw [hkeysdone']
              exact Or.inl (List.mem_cons_of_mem _ h)
            · rcases hfr_cases v h with rfl | hvrest
              · rw [hkeysdone']
                exact Or.inl (List.mem_cons_self _ _)
              · exact Or.inr (entryKeys_subset_relaxList u _ _ rest hvrest)
        · intro k hk
          rcases entryKeys_relaxList_subset u _ _ rest k hk with h | h
          · exact inv.frBound k (hrest_sub k h)
          · rcases List.mem_map.mp h with ⟨e, he, rfl⟩
            exact Or.inr (List.mem_map_of_mem Edge.dst (List.mem_filter.mp he).1)
        · intro k hk
          rw [hkeysdone'] at hk
          rcases List.mem_cons.mp hk with rfl | hk'
          · exact inv.frBound _ humem
          · exact inv.doneBound k hk'
      have hlen' : g.edges.length + 2 ≤ fuel + (u :: done).length := by
        simp only [List.length_cons]
        omega
      obtain ⟨rOk, rClosed, rFr, rDone⟩ := ih _ _ inv' hlen'
      rw [dijkstraAux, hx]
      refine ⟨rOk, rClosed, ?_, ?_⟩
      · intro k hk
        rcases hfr_cases k hk with rfl | hkrest
        · exact rDone _ (by simp [entryKeys])
        · exact rFr _ (entryKeys_subset_relaxList u _ _ rest hkrest)
      · intro k hk
        exact rDone _ (List.mem_cons_of_mem _ hk)

/-- C3: for every start node, end node and vehicle class, the routing
query either returns a path every consecutive edge of which permits the
class (edges not permitting the class are invisible: a returned path can
only use passable edges), or returns `none` exactly when the destination
is unreachable in the class-restricted view.  The embedded query is a
total function: unreachability is a return value, never an exception. -/
theorem shortest_path_class_filter (g : CityGraph) (start target cls : String) :
    (∀ p, get_shortest_path g start target cls = some p → ValidPath g cls start target p) ∧
    (get_shortest_path g start target cls = none ↔
      ¬ ∃ p, ValidPath g cls start target p) := by
  have hinit : DijkInv g cls start [{ node := start, cost := 0, path := [start] }] [] := by
    refine ⟨?_, ?_, ?_, ?_, ?_, ?_, ?_, ?_⟩
    · intro e he
      rw [List.mem_singleton] at he
      subst he
      exact ⟨rfl, rfl, rfl⟩
    · intro e he; cases he
    · simp [entryKeys]
    · simp [entryKeys]
    · intro k _ h; simp [entryKeys] at h
    · intro e he; cases he
    · intro k hk
      simp [entryKeys] at hk
      exact Or.inl hk
    · intro k hk; simp [entryKeys] at hk
  obtain ⟨rOk, rClosed, rFr, rDone⟩ :=
    dijkstraAux_spec g cls start (g.edges.length + 2)
      [{ node := start, cost := 0, path := [start] }] [] hinit (by simp)
  have hsound : ∀ p, get_shortest_path g start target cls = some p →
      ValidPath g cls start target p := by
    intro p hp
    unfold get_shortest_path at hp
    rcases hf : (dijkstraAux g cls (g.edges.length + 2)
        [{ node := start, cost := 0, path := [start] }] []).find?
        (fun e => e.node == target) with _ | e
    · rw [hf] at hp; cases hp
    · rw [hf] at hp
      cases hp
      have hmem := List.mem_of_find?_eq_some hf
      have htgt : e.node = target := by simpa using List.find?_some hf
      obtain ⟨hokp, hh, hl⟩ := rOk e hmem
      exact ⟨hokp, hh, htgt ▸ hl⟩
  have hreach : ∀ p, pathOk g cls p = true → ∀ a, p.head? = some a →
      a ∈ entryKeys (dijkstraAux g cls (g.edges.length + 2)
        [{ node := start, cost := 0, path := [start] }] []) →
      ∀ b, p.getLast? = some b →
      b ∈ entryKeys (dijkstraAux g cls (g.edges.length + 2)
        [{ node := start, cost := 0, path := [start] }] []) := by
    intro p
    induction p with
    | nil => intro h; cases h
    | cons x xs ih =>
      intro hok a hh ha b hb
      have hax : a = x := by simpa using hh.symm
      subst hax
      cases xs with
      | nil =>
        have hbx : b = a := by simpa using hb.symm
        subst hbx
        exact ha
      | cons y ys =>
        simp only [pathOk, Bool.and_eq_true] at hok
        rcases List.mem_map.mp ha with ⟨e, heR, hex⟩
        have hpass : passable g cls e.node y = true := by rw [hex]; exact hok.1
        have hy := rClosed e heR y hpass
        refine ih hok.2 y rfl hy b ?_
        rw [List.getLast?_cons_cons] at hb
        exact hb
  have hcomplete : (∃ p, ValidPath g cls start target p) →
      target ∈ entryKeys (dijkstraAux g cls (g.edges.length + 2)
        [{ node := start, cost := 0, path := [start] }] []) := by
    rintro ⟨p, hokp, hh, hl⟩
    exact hreach p hokp start hh (rFr _ (by simp [entryKeys])) target hl
  refine ⟨hsound, ?_, ?_⟩
  · intro hn hex
    have htk := hcomplete hex
    rcases List.mem_map.mp htk with ⟨e, heR, hek⟩
    have hsome : ((dijkstraAux g cls (g.edges.length + 2)
        [{ node := start, cost := 0, path := [start] }] []).find?
        (fun e => e.node == target)).isSome :=
      List.find?_isSome.mpr ⟨e, heR, by simp [hek]⟩
    unfold get_shortest_path at hn
    rcases hf : (dijkstraAux g cls (g.edges.length + 2)
        [{ node := start, cost := 0, path := [start] }] []).find?
        (fun e => e.node == target) with _ | e'
    · rw [hf] at hsome; cases hsome
    · rw [hf] at hn; cases hn
  · intro hne
    rcases ho : get_shortest_path g start target cls with _ | p
    · rfl
    · exact absurd ⟨p, hsound p ho⟩ hne

/-- Helper: the head of the stable sort by ETA is the first proposal (in
arrival order) attaining the minimum ETA: it is minimal, and every
proposal that arrived before it has a strictly larger ETA. -/
theorem head_insertionSort_firstMin (l : List Proposal) :
    ∀ b t, List.insertionSort etaLE l = b :: t →
      ∃ pre post, l = pre ++ b :: post ∧ (∀ q ∈ l, b.eta ≤ q.eta) ∧
        ∀ q ∈ pre, b.eta < q.eta := by
  induction l with
  | nil => intro b t h; simp at h
  | cons p l ih =>
    intro b t h
    rcases hs : List.insertionSort etaLE l with _ | ⟨m, t'⟩
    · have hperm := List.perm_insertionSort etaLE l
      rw [hs] at hperm
      have hl : l = [] := hperm.symm.eq_nil
      subst hl
      simp only [List.insertionSort, List.orderedInsert] at h
      injection h with h1 h2
      subst h1
      exact ⟨[], [], rfl, by simp, by simp⟩
    · obtain ⟨pre', post', hleq, hmin, hstrict⟩ := ih m t' hs
      simp only [List.insertionSort] at h
      rw [hs, List.orderedInsert] at h
      by_cases hpm : etaLE p m
      · rw [if_pos hpm] at h
        injection h with h1 h2
        subst h1
        refine ⟨[], l, rfl, ?_, by simp⟩
        intro q hq
        rcases List.mem_cons.mp hq with rfl | hq'
        · exact le_refl _
        · exact le_trans hpm (hmin q hq')
      · rw [if_neg hpm] at h
        injection h with h1 h2
        subst h1
        refine ⟨p :: pre', post', by simp [hleq], ?_, ?_⟩
        · intro q hq
          rcases List.mem_cons.mp hq with rfl | hq'
          · exact le_of_lt (not_le.mp hpm)
          · exact hmin q hq'
        · intro q hq
          rcases List.mem_cons.mp hq with rfl | hq'
          · exact not_le.mp hpm
          · exact hstrict q hq'

/-- C2: a session with at least one bid awards exactly the first-received
proposal among those with minimum ETA, rejects exactly the other proposals
(one rejection each, reason `better_proposal_found` by `cnpDecide`'s
rejection list), notifies the passenger of success with the winning ETA,
and removes the passenger from the station queue. -/
theorem cnp_awards_first_min_eta (ps : List Proposal) (queue : List String)
    (passenger : String) (h : ps ≠ []) :
    ∃ w rest pre post,
      cnpDecide ps queue passenger =
        { award := some w, rejections := rest,
          passengerMsg := some (.vehicleFound w.eta),
          queue := queue.erase passenger,
          metricKind := "NEGOTIATION_OK" } ∧
      ps = pre ++ w :: post ∧
      (∀ q ∈ ps, w.eta ≤ q.eta) ∧
      (∀ q ∈ pre, w.eta < q.eta) ∧
      (w :: rest).Perm ps := by
  rcases hs : List.insertionSort etaLE ps with _ | ⟨b, t⟩
  · exfalso
    have hperm := List.perm_insertionSort etaLE ps
    rw [hs] at hperm
    exact h hperm.symm.eq_nil
  · obtain ⟨pre, post, heq, hmin, hstrict⟩ := head_insertionSort_firstMin ps b t hs
    refine ⟨b, t, pre, post, ?_, heq, hmin, hstrict, ?_⟩
    · unfold cnpDecide
      rw [hs]
      by_cases hq : passenger ∈ queue
      · simp [hq]
      · simp [hq, List.erase_of_not_mem hq]
    · rw [← hs]
      exact List.perm_insertionSort etaLE ps

/-- C2 witness: three bids with a tie for the minimum — the
first-received of the tied bids (v2) wins. -/
theorem cnp_awards_first_min_eta_witness :
    ∃ w rest pre post,
      cnpDecide [⟨"v1", 5⟩, ⟨"v2", 3⟩, ⟨"v3", 3⟩] ["alice", "bob"] "alice" =
        { award := some w, rejections := rest,
          passengerMsg := some (.vehicleFound w.eta),
          queue := ["alice", "bob"].erase "alice",
          metricKind := "NEGOTIATION_OK" } ∧
      [(⟨"v1", 5⟩ : Proposal), ⟨"v2", 3⟩, ⟨"v3", 3⟩] = pre ++ w :: post ∧
      (∀ q ∈ [(⟨"v1", 5⟩ : Proposal), ⟨"v2", 3⟩, ⟨"v3", 3⟩], w.eta ≤ q.eta) ∧
      (∀ q ∈ pre, w.eta < q.eta) ∧
      (w :: rest).Perm [⟨"v1", 5⟩, ⟨"v2", 3⟩, ⟨"v3", 3⟩] :=
  cnp_awards_first_min_eta [⟨"v1", 5⟩, ⟨"v2", 3⟩, ⟨"v3", 3⟩] ["alice", "bob"] "alice"
    (by decide)

/-- C4 failing input: `handle_cfp` computes the safety reserve from the
destination→depot path's TIME cost (`get_total_time`), not its distance
cost.  On `reserveBus` every precondition of the claim holds and the
distance-based threshold of the claim is met with a huge margin
(2.4 + 1 + 15 = 18.4 ≤ 100), yet the code refuses with
`insufficient_fuel_safety` because the time-based reserve is
1000 · 0.2 = 200. -/
theorem fuel_reserve_time_cost_failing_input :
    (handle_cfp reserveBus "Central" "South" (some "s1")).2 =
      [VEvent.refuseReply "insufficient_fuel_safety"] ∧
    reserveBus.vehicle_type ≠ "tram" ∧
    (30 : ℚ) ≤ reserveBus.fuel_level ∧
    reserveBus.manifest.length < reserveBus.capacity ∧
    get_shortest_path reserveBus.city_map "Central" "Central" "bus" = some ["Central"] ∧
    get_shortest_path reserveBus.city_map "Central" "South" "bus" =
      some ["Central", "South"] ∧
    get_shortest_path reserveBus.city_map "South" "GasStation" "bus" =
      some ["South", "GasStation"] ∧
    get_total_distance reserveBus.city_map ["South", "GasStation"] = 5 ∧
    get_total_time reserveBus.city_map ["South", "GasStation"] = 1000 ∧
    ¬ (reserveBus.fuel_level <
        (get_total_distance reserveBus.city_map ["Central"] +
          get_total_distance reserveBus.city_map ["Central", "South"]) *
            reserveBus.fuel_consumption +
          get_total_distance reserveBus.city_map ["South", "GasStation"] *
            reserveBus.fuel_consumption + 15) := by
  refine ⟨?_, ?_, ?_, ?_, ?_, ?_, ?_, ?_, ?_, ?_⟩
  · with_unfolding_all rfl
  · decide
  · exact of_decide_eq_true (by with_unfolding_all rfl)
  · decide
  · with_unfolding_all rfl
  · with_unfolding_all rfl
  · with_unfolding_all rfl
  · with_unfolding_all rfl
  · with_unfolding_all rfl
  · exact of_decide_eq_false (by with_unfolding_all rfl)

/-- C5 failing input: the bid's `eta` field is `pickup_cost`
(`get_total_distance` of the pickup leg), not the pickup travel time.  On
`etaBus` the class-filtered shortest path Central→North is the direct
edge with time cost 12 but distance cost 10, and the emitted proposal
carries eta = 10. -/
theorem proposal_eta_distance_failing_input :
    (handle_cfp etaBus "North" "East" (some "s2")).2 =
      [VEvent.proposeReply "bus4" 10 4 ["North", "East"]] ∧
    get_shortest_path etaBus.city_map "Central" "North" "bus" =
      some ["Central", "North"] ∧
    get_total_time etaBus.city_map ["Central", "North"] = 12 ∧
    get_total_distance etaBus.city_map ["Central", "North"] = 10 ∧
    (10 : ℚ) ≠ 12 := by
  refine ⟨?_, ?_, ?_, ?_, ?_⟩
  · with_unfolding_all rfl
  · with_unfolding_all rfl
  · with_unfolding_all rfl
  · with_unfolding_all rfl
  · decide

/-- C6: a session whose window closes with zero bids fails: nothing is
awarded, nothing is rejected, the failure metric is recorded, and the
passenger — if still queued — is dequeued and sent exactly one
`no_vehicles_available` notification, while a passenger who already left
the queue receives no message at all (and the queue, lacking the
passenger, is unchanged by the erase). -/
theorem no_bids_session_fails (queue : List String) (passenger : String) :
    cnpDecide [] queue passenger =
      { award := none, rejections := [],
        passengerMsg := if passenger ∈ queue then some .noVehiclesAvailable else none,
        queue := queue.erase passenger,
        metricKind := "NEGOTIATION_FAIL" } := by
  unfold cnpDecide
  by_cases hq : passenger ∈ queue
  · simp [hq]
  · simp [hq, List.erase_of_not_mem hq]

/-- C8: starting from an idle pool with `N` mechanics, every reachable
state keeps `inService + sem = N`, hence at most `N` repairs run at any
instant; and in a state with all `N` slots busy no job can start — only
an arrival or the completion of a running job is possible. -/
theorem repair_pool_bounded (N : Nat) (s : PoolState) (h : PoolReachable N s) :
    s.inService + s.sem = N ∧ s.inService ≤ N ∧
    (s.inService = N → ∀ s', PoolStep s s' → ¬ s.inService < s'.inService) := by
  have hinv : s.inService + s.sem = N := by
    induction h with
    | refl => simp [initialPool]
    | tail _ hstep ih =>
      cases hstep with
      | arrive => simpa using ih
      | start hw hs => dsimp only at ih ⊢; omega
      | finish hi => dsimp only at ih ⊢; omega
  refine ⟨hinv, by omega, ?_⟩
  intro hfull s' hstep
  cases hstep with
  | arrive => dsimp only; omega
  | start hw hs => omega
  | finish hi => dsimp only; omega

/-- C8 witness: a concrete reachable state (two jobs in service with
N = 2) certified through the theorem. -/
theorem repair_pool_bounded_witness :
    ({ waiting := 0, inService := 2, finished := 0, sem := 0 } : PoolState).inService + 0 = 2 ∧
    ({ waiting := 0, inService := 2, finished := 0, sem := 0 } : PoolState).inService ≤ 2 := by
  have hreach : PoolReachable 2 { waiting := 0, inService := 2, finished := 0, sem := 0 } := by
    refine Relation.ReflTransGen.trans (Relation.ReflTransGen.single (PoolStep.arrive _)) ?_
    refine Relation.ReflTransGen.trans (Relation.ReflTransGen.single (PoolStep.arrive _)) ?_
    refine Relation.ReflTransGen.trans
      (Relation.ReflTransGen.single (PoolStep.start _ (by decide) (by decide))) ?_
    exact Relation.ReflTransGen.single (PoolStep.start _ (by decide) (by decide))
  have h := repair_pool_bounded 2 _ hreach
  exact ⟨h.1, h.2.1⟩

end Spade
